import Mathlib

/-!
Verification model of the `scc::Internify` interning pool
(repository `25077667/Internify`, header `src/internify.hpp` and the
near-duplicate draft in `src/unnamed/part_001` that adds the
`InternedPtr` handle class).

The pool is a hash table `m_interningMap : unordered_map<HashedValue,
InterningNode>` keyed by the OUTPUT OF THE HASH FUNCTION alone — the
source performs no equality check on the stored value after the key
lookup.  Heap addresses (the identity of each node's storage, i.e. the
`const T*` / `shared_ptr<T>::get()` values that handles compare) are
modelled by giving every freshly inserted node a fresh natural-number
`id` drawn from an allocation counter.  `std::atomic<int>` refcounts are
modelled as `Int`.  All operations run under the pool's mutex, so the
sequential model applies each operation atomically.
-/

namespace Scc

/-- `InterningNode` from the source: one immutable stored value plus its
reference count.  `id` models the identity of the node's heap storage
(the address returned to handles). -/
structure InterningNode (α : Type) where
  id : Nat
  value : α
  refCount : Int
deriving DecidableEq

/-- `Internify::InternedPtr` from `src/unnamed/part_001`: `m_owner`
(modelled as a Bool — does it hold a non-null owner pointer) and `m_ptr`
(modelled as `none` for `nullptr`, or `some (addr, pointedValue)` where
`addr` is the storage id and `pointedValue` the value residing there). -/
structure InternedPtr (α : Type) where
  owner : Bool
  ptr : Option (Nat × α)
deriving DecidableEq

/-- The moved-from / reset state: `m_owner = nullptr`, `m_ptr = nullptr`. -/
def InternedPtr.invalid {α : Type} : InternedPtr α := ⟨false, none⟩

/-- The raw pointer value `m_ptr` compared by `operator==` (addresses
only; `none` is `nullptr`). -/
def InternedPtr.addr {α : Type} (h : InternedPtr α) : Option Nat :=
  h.ptr.map Prod.fst

/-- `InternedPtr::is_valid` / `operator bool`: `m_ptr != nullptr && m_owner != nullptr`. -/
def InternedPtr.is_valid {α : Type} (h : InternedPtr α) : Bool :=
  h.ptr.isSome && h.owner

/-- `InternedPtr::operator==`: `m_ptr == other.m_ptr` (pointer identity). -/
def InternedPtr.eqOp {α : Type} (a b : InternedPtr α) : Bool :=
  a.addr == b.addr

/-- `InternedPtr::operator!=`: `m_ptr != other.m_ptr`. -/
def InternedPtr.neOp {α : Type} (a b : InternedPtr α) : Bool :=
  a.addr != b.addr

/-- The pool `scc::Internify<T, HashFunc>`.  `hash` is the `HashFunc`
template parameter, `m_interningMap` the table (association list keyed
by hash output, unique keys in every reachable state), `nextId` the
allocator counter handing out fresh storage identities. -/
structure Internify (α : Type) where
  hash : α → Nat
  m_interningMap : List (Nat × InterningNode α)
  nextId : Nat

/-- A default-constructed pool: empty table. -/
def Internify.empty {α : Type} (hash : α → Nat) : Internify α :=
  ⟨hash, [], 0⟩

/-- `unordered_map::find` by key (unique keys: first match is the match). -/
def lookupK {α : Type} (k : Nat) : List (Nat × InterningNode α) → Option (InterningNode α)
  | [] => none
  | q :: rest => if q.1 = k then some q.2 else lookupK k rest

/-- In-place modification of the entry an iterator found
(`it->second->refCount.fetch_add/fetch_sub`): rewrite the first entry
with the given key. -/
def updFirst {α : Type} (k : Nat) (f : InterningNode α → InterningNode α) :
    List (Nat × InterningNode α) → List (Nat × InterningNode α)
  | [] => []
  | q :: rest => if q.1 = k then (q.1, f q.2) :: rest else q :: updFirst k f rest

/-- `unordered_map::erase` of the entry with the given key. -/
def eraseFirst {α : Type} (k : Nat) :
    List (Nat × InterningNode α) → List (Nat × InterningNode α)
  | [] => []
  | q :: rest => if q.1 = k then rest else q :: eraseFirst k rest

/-- `refCount.fetch_add(1, ...)` on a node. -/
def bumpRC {α : Type} (n : InterningNode α) : InterningNode α :=
  ⟨n.id, n.value, n.refCount + 1⟩

/-- `refCount.fetch_sub(1, ...)` on a node. -/
def dropRC {α : Type} (n : InterningNode α) : InterningNode α :=
  ⟨n.id, n.value, n.refCount - 1⟩

namespace Internify

variable {α : Type}

/-- `Internify::hashValue`: apply the `HashFunc`. -/
def hashValue (p : Internify α) (value : α) : Nat :=
  p.hash value

/-- `Internify::findExisting`: look the key up; on a hit, `fetch_add(1)`
the refcount and return the address of the stored value. -/
def findExisting (p : Internify α) (value : α) :
    Option (Nat × α) × Internify α :=
  match lookupK (p.hashValue value) p.m_interningMap with
  | some node =>
      (some (node.id, node.value),
       ⟨p.hash, updFirst (p.hashValue value) bumpRC p.m_interningMap, p.nextId⟩)
  | none => (none, p)

/-- `Internify::insertNew`: `try_emplace` a fresh node with refcount 1;
if the key turns out to be present, `fetch_add(1)` instead and return
the existing storage. -/
def insertNew (p : Internify α) (value : α) : (Nat × α) × Internify α :=
  match lookupK (p.hashValue value) p.m_interningMap with
  | some node =>
      ((node.id, node.value),
       ⟨p.hash, updFirst (p.hashValue value) bumpRC p.m_interningMap, p.nextId⟩)
  | none =>
      ((p.nextId, value),
       ⟨p.hash, (p.hashValue value, ⟨p.nextId, value, 1⟩) :: p.m_interningMap,
        p.nextId + 1⟩)

/-- `Internify::internify`: return the existing storage if found, else
insert; wrap the resulting address in an `InternedPtr(this, ptr)`. -/
def internify (p : Internify α) (value : α) : InternedPtr α × Internify α :=
  let r := p.findExisting value
  match r.1 with
  | some ptr => (⟨true, some ptr⟩, r.2)
  | none =>
      let s := r.2.insertNew value
      (⟨true, some s.1⟩, s.2)

/-- `Internify::release`: find the key; if present, `fetch_sub(1)` the
refcount, and erase the entry in the same critical section when the
count was 1 (i.e. the decrement reaches zero). -/
def release (p : Internify α) (value : α) : Internify α :=
  match lookupK (p.hashValue value) p.m_interningMap with
  | none => p
  | some node =>
      if node.refCount = 1 then
        ⟨p.hash, eraseFirst (p.hashValue value) p.m_interningMap, p.nextId⟩
      else
        ⟨p.hash, updFirst (p.hashValue value) dropRC p.m_interningMap, p.nextId⟩

/-- `Internify::find` from `src/unnamed/part_001`: on a hit `fetch_add(1)`
and return `InternedPtr(this, &value)`; on a miss return
`InternedPtr(nullptr, nullptr)` leaving the pool untouched. -/
def find (p : Internify α) (value : α) : InternedPtr α × Internify α :=
  match lookupK (p.hashValue value) p.m_interningMap with
  | some node =>
      (⟨true, some (node.id, node.value)⟩,
       ⟨p.hash, updFirst (p.hashValue value) bumpRC p.m_interningMap, p.nextId⟩)
  | none => (⟨false, none⟩, p)

/-- `Internify::erase`: `m_interningMap.erase(hashValue(value))` —
unconditional removal of the entry stored under the value's hash key. -/
def erase (p : Internify α) (value : α) : Internify α :=
  ⟨p.hash, eraseFirst (p.hashValue value) p.m_interningMap, p.nextId⟩

/-- `Internify::size`: `m_interningMap.size()`. -/
def size (p : Internify α) : Nat :=
  p.m_interningMap.length

end Internify

namespace Hpp

/-- `Internify::find` from `src/internify.hpp` (the `shared_ptr` draft):
const method, returns `it->second->value` on a hit WITHOUT touching the
refcount, `nullptr` on a miss; the pool state never changes. -/
def find {α : Type} (p : Internify α) (value : α) : Option (Nat × α) :=
  match lookupK (p.hashValue value) p.m_interningMap with
  | some node => some (node.id, node.value)
  | none => none

end Hpp

namespace InternedPtr

variable {α : Type}

/-- `InternedPtr::release`: `if (m_owner && m_ptr) m_owner->release(*m_ptr);`
then `reset()`.  Returns the reset handle and the updated pool. -/
def release (h : InternedPtr α) (pool : Internify α) :
    InternedPtr α × Internify α :=
  match h.owner, h.ptr with
  | true, some q => (InternedPtr.invalid, pool.release q.2)
  | true, none => (InternedPtr.invalid, pool)
  | false, _ => (InternedPtr.invalid, pool)

/-- Move construction: the new handle copies `m_owner`/`m_ptr`, the
source is `reset()` to the inert state.  Returns (new, moved-from). -/
def moveCtor (other : InternedPtr α) : InternedPtr α × InternedPtr α :=
  (⟨other.owner, other.ptr⟩, InternedPtr.invalid)

/-- Move assignment (`this != &other` case): `this` performs its one
release against the pool, then takes `other`'s fields and `other` is
`reset()`.  Returns ((new dst, moved-from src), updated pool). -/
def moveAssign (dst src : InternedPtr α) (pool : Internify α) :
    (InternedPtr α × InternedPtr α) × Internify α :=
  let r := dst.release pool
  ((⟨src.owner, src.ptr⟩, InternedPtr.invalid), r.2)

end InternedPtr

/-- Sanity: interning the same value twice yields pointer-equal handles
and a single table entry with refcount 2 (test `BasicUsage` /
`NoResourceLeakage`). -/
example :
    let p0 := Internify.empty (fun n : Nat => n % 10)
    let r1 := p0.internify 7
    let r2 := r1.2.internify 7
    r1.1.eqOp r2.1 = true ∧ r2.2.size = 1 ∧
      lookupK 7 r2.2.m_interningMap = some ⟨0, 7, 2⟩ := by decide

/-- Sanity: distinct non-colliding values get distinct storage. -/
example :
    let p0 := Internify.empty (fun n : Nat => n % 10)
    let r1 := p0.internify 7
    let r2 := r1.2.internify 3
    r1.1.eqOp r2.1 = false ∧ r2.2.size = 2 := by decide

/-- A hash function with a collision: `0` and `2` are unequal but hash to
the same key `0`. -/
def modHash : Nat → Nat := fun n => n % 2

/-- Interning `0` into an empty pool over `modHash`: `(handle, pool)`. -/
def interned0 : InternedPtr Nat × Internify Nat :=
  (Internify.empty modHash).internify 0

/-- Then interning the hash-colliding unequal value `2`. -/
def interned2 : InternedPtr Nat × Internify Nat :=
  interned0.2.internify 2

/-- C1: the claim requires `intern(x)`/`intern(y)` handles to compare
equal iff `x = y`, with unequal hash-colliding values getting unequal
handles and distinct entries.  The code violates it: with hash
`n % 2`, interning `0` and then the unequal value `2` yields handles
that compare EQUAL, and the pool holds a single entry rather than a
distinct entry per value. -/
theorem c1_collision_identity_bug :
    (0 : Nat) ≠ 2 ∧
    interned0.1.eqOp interned2.1 = true ∧
    interned2.2.size = 1 := by decide

/-- C3: the claim requires `intern(v)` to return a handle to storage
holding a value equal to `v`, creating a fresh refcount-1 entry when no
entry for an equal value exists.  The code violates it: after interning
`0`, interning the unequal colliding value `2` returns a handle whose
storage holds `0` (not `2`), creates no new entry, and instead bumps the
colliding entry's refcount to 2. -/
theorem c3_intern_collision_bug :
    interned2.1.ptr.map Prod.snd = some 0 ∧
    (0 : Nat) ≠ 2 ∧
    lookupK 0 interned2.2.m_interningMap = some ⟨0, 0, 2⟩ ∧
    interned2.2.size = 1 := by decide

/-- C5: the claim requires `release(v)` to be a no-op when no entry
matching `v` BY EQUALITY is present.  The code violates it: the pool
holds only an entry whose value is `0`, no entry equal to `2` exists,
yet `release(2)` finds the colliding entry via the hash key, decrements
it to zero and removes it — the state changes. -/
theorem c5_release_collision_bug :
    (∀ e ∈ interned0.2.m_interningMap, e.2.value ≠ 2) ∧
    (interned0.2.release 2).m_interningMap = [] ∧
    interned0.2.size = 1 := by decide

/-- C6: the claim requires `find(v)` to return none and leave the pool
unchanged when no entry matching `v` by equality is present.  The code
violates it: with only an entry for `0` present, `find(2)` returns a
VALID handle (to `0`'s storage) and increments that entry's refcount;
the `shared_ptr` draft's `find` also returns a non-null result (and, in
addition, never increments even on a genuine hit). -/
theorem c6_find_collision_bug :
    (∀ e ∈ interned0.2.m_interningMap, e.2.value ≠ 2) ∧
    (interned0.2.find 2).1.is_valid = true ∧
    (interned0.2.find 2).1.ptr.map Prod.snd = some 0 ∧
    lookupK 0 (interned0.2.find 2).2.m_interningMap = some ⟨0, 0, 2⟩ ∧
    Hpp.find interned0.2 2 = some (0, 0) := by decide

/-- C7: the claim requires `erase(v)` to be a no-op when no entry
matching `v` is present.  The code violates it: with only an entry whose
value is `0` present (nothing equal to `2`), `erase(2)` removes that
entry through the shared hash key — not a no-op. -/
theorem c7_erase_collision_bug :
    (∀ e ∈ interned0.2.m_interningMap, e.2.value ≠ 2) ∧
    (interned0.2.erase 2).m_interningMap = [] ∧
    interned0.2.m_interningMap ≠ [] := by decide

/-- C8: a handle performs exactly one release over its lifetime:
re-disposing an already-disposed handle touches no refcount, a
moved-from handle is inert (its disposal is a no-op on any pool), move
construction transfers the one counted reference unchanged, and move
assignment performs exactly the destination's one release and leaves the
source inert. -/
theorem c8_single_release (α : Type) (p pool2 : Internify α)
    (h src : InternedPtr α) :
    (h.release p).1.release pool2 = (InternedPtr.invalid, pool2) ∧
    h.moveCtor.2.release pool2 = (InternedPtr.invalid, pool2) ∧
    h.moveCtor.1 = h ∧
    (h.moveAssign src p).1.1 = src ∧
    (h.moveAssign src p).1.2 = InternedPtr.invalid ∧
    (h.moveAssign src p).2 = (h.release p).2 := by
  cases h with
  | mk o pt =>
    cases src with
    | mk o2 pt2 =>
      cases o <;> cases pt <;>
        exact ⟨rfl, rfl, rfl, rfl, rfl, rfl⟩

/-- Two handles for equal values at distinct storage: intern `4`, erase
it administratively, intern `4` again — fresh storage. -/
def reinterned4A : InternedPtr Nat × Internify Nat :=
  (Internify.empty (fun n : Nat => n)).internify 4

/-- The second interning of `4`, after `erase(4)` destroyed the first
entry. -/
def reinterned4B : InternedPtr Nat × Internify Nat :=
  (reinterned4A.2.erase 4).internify 4

/-- C9: `operator==` on handles is identity of the referenced storage
location, not value equality of the pointed-to values, and `operator!=`
is its negation: `h1 == h2` iff the raw `m_ptr` values agree, and two
handles whose pointed-to values are both `4` but which reference
different storage (interning after an administrative erase) compare
unequal. -/
theorem c9_handle_equality (α : Type) (h1 h2 : InternedPtr α) :
    (h1.eqOp h2 = true ↔ h1.addr = h2.addr) ∧
    (h1.neOp h2 = !(h1.eqOp h2)) ∧
    (reinterned4A.1.ptr.map Prod.snd = some 4 ∧
     reinterned4B.1.ptr.map Prod.snd = some 4 ∧
     reinterned4A.1.eqOp reinterned4B.1 = false) := by
  refine ⟨?_, rfl, by decide⟩
  simp [InternedPtr.eqOp]

/-- Membership after `eraseFirst` implies membership before. -/
theorem mem_eraseFirst {α : Type} {k : Nat} {t : List (Nat × InterningNode α)}
    {e : Nat × InterningNode α} (he : e ∈ eraseFirst k t) : e ∈ t := by
  induction t with
  | nil => simp [eraseFirst] at he
  | cons q rest ih =>
    by_cases hq : q.1 = k
    · simp only [eraseFirst, if_pos hq] at he
      exact List.mem_cons_of_mem _ he
    · simp only [eraseFirst, if_neg hq, List.mem_cons] at he
      rcases he with h | h
      · exact h ▸ List.mem_cons_self _ _
      · exact List.mem_cons_of_mem _ (ih h)

/-- A successful `lookupK` result is a member of the table. -/
theorem lookupK_mem {α : Type} {k : Nat} {t : List (Nat × InterningNode α)}
    {n : InterningNode α} (h : lookupK k t = some n) : (k, n) ∈ t := by
  induction t with
  | nil => simp [lookupK] at h
  | cons q rest ih =>
    by_cases hq : q.1 = k
    · simp only [lookupK, if_pos hq, Option.some.injEq] at h
      have hqe : q = (k, n) := by
        cases q with
        | mk a b => simp only [Prod.mk.injEq]; exact ⟨hq, h⟩
      exact hqe ▸ List.mem_cons_self _ _
    · simp only [lookupK, if_neg hq] at h
      exact List.mem_cons_of_mem _ (ih h)

/-- Every member after `updFirst` is an old member or the image under
`f` of the entry `lookupK` finds. -/
theorem mem_updFirst {α : Type} {k : Nat} {f : InterningNode α → InterningNode α}
    {t : List (Nat × InterningNode α)} {e : Nat × InterningNode α}
    (he : e ∈ updFirst k f t) :
    e ∈ t ∨ ∃ n, lookupK k t = some n ∧ e = (k, f n) := by
  induction t with
  | nil => simp [updFirst] at he
  | cons q rest ih =>
    by_cases hq : q.1 = k
    · simp only [updFirst, if_pos hq, List.mem_cons] at he
      rcases he with h | h
      · right
        exact ⟨q.2, by simp [lookupK, if_pos hq], by rw [h, hq]⟩
      · left
        exact List.mem_cons_of_mem _ h
    · simp only [updFirst, if_neg hq, List.mem_cons] at he
      rcases he with h | h
      · left
        exact h ▸ List.mem_cons_self _ _
      · rcases ih h with h1 | ⟨n, hn, hne⟩
        · left
          exact List.mem_cons_of_mem _ h1
        · right
          exact ⟨n, by simp [lookupK, if_neg hq, hn], hne⟩

/-- The operation language of the pool's public surface. -/
inductive Op (α : Type) where
  | intern (v : α)
  | findOp (v : α)
  | findHpp (v : α)
  | releaseOp (v : α)
  | eraseOp (v : α)
  | sizeOp

/-- The pool-state effect of one public operation (`size` and the
`shared_ptr` draft's const `find` are pure reads). -/
def applyOp {α : Type} (p : Internify α) : Op α → Internify α
  | .intern v => (p.internify v).2
  | .findOp v => (p.find v).2
  | .findHpp _ => p
  | .releaseOp v => p.release v
  | .eraseOp v => p.erase v
  | .sizeOp => p

/-- Run a sequence of public operations. -/
def runOps {α : Type} (p : Internify α) : List (Op α) → Internify α
  | [] => p
  | op :: ops => runOps (applyOp p op) ops

/-- The table-wide invariant: every entry present has refcount ≥ 1. -/
def MinRC {α : Type} (p : Internify α) : Prop :=
  ∀ e ∈ p.m_interningMap, 1 ≤ e.2.refCount

/-- `updFirst` with a refcount bump preserves the invariant. -/
theorem minRC_updFirst_bump {α : Type} {p : Internify α} (hp : MinRC p)
    {k : Nat} {e : Nat × InterningNode α}
    (he : e ∈ updFirst k bumpRC p.m_interningMap) : 1 ≤ e.2.refCount := by
  rcases mem_updFirst he with h | ⟨n, hn, hne⟩
  · exact hp e h
  · have h1 : 1 ≤ n.refCount := hp (k, n) (lookupK_mem hn)
    rw [hne]
    simp only [bumpRC]
    omega

/-- Every public operation preserves the refcount invariant. -/
theorem minRC_applyOp {α : Type} {p : Internify α} (hp : MinRC p)
    (op : Op α) : MinRC (applyOp p op) := by
  cases op with
  | intern v =>
    intro e he
    simp only [applyOp, Internify.internify, Internify.findExisting] at he
    cases hlk : lookupK (p.hashValue v) p.m_interningMap with
    | some node =>
      rw [hlk] at he
      simp only at he
      exact minRC_updFirst_bump hp he
    | none =>
      rw [hlk] at he
      simp only [Internify.insertNew] at he
      rw [hlk] at he
      simp only [List.mem_cons] at he
      rcases he with h | h
      · rw [h]
      · exact hp e h
  | findOp v =>
    intro e he
    simp only [applyOp, Internify.find] at he
    cases hlk : lookupK (p.hashValue v) p.m_interningMap with
    | some node =>
      rw [hlk] at he
      simp only at he
      exact minRC_updFirst_bump hp he
    | none =>
      rw [hlk] at he
      exact hp e he
  | findHpp v => exact hp
  | releaseOp v =>
    intro e he
    simp only [applyOp, Internify.release] at he
    cases hlk : lookupK (p.hashValue v) p.m_interningMap with
    | some node =>
      rw [hlk] at he
      simp only at he
      by_cases h1 : node.refCount = 1
      · rw [if_pos h1] at he
        exact hp e (mem_eraseFirst he)
      · rw [if_neg h1] at he
        simp only at he
        rcases mem_updFirst he with h | ⟨n, hn, hne⟩
        · exact hp e h
        · have heq : n = node := by rw [hn] at hlk; exact Option.some.inj hlk
          have hge : 1 ≤ node.refCount := hp (p.hashValue v, node) (lookupK_mem hlk)
          rw [hne, heq]
          simp only [dropRC]
          omega
    | none =>
      rw [hlk] at he
      exact hp e he
  | eraseOp v =>
    intro e he
    simp only [applyOp, Internify.erase] at he
    exact hp e (mem_eraseFirst he)
  | sizeOp => exact hp

/-- Running any operation sequence preserves the invariant. -/
theorem minRC_runOps {α : Type} (ops : List (Op α)) :
    ∀ p : Internify α, MinRC p → MinRC (runOps p ops) := by
  induction ops with
  | nil => intro p hp; exact hp
  | cons op rest ih => intro p hp; exact ih _ (minRC_applyOp hp op)

/-- C2: in every pool state reachable from an empty pool by any sequence
of public operations (intern, find — both drafts, release, erase, size),
every entry present in the table has refcount ≥ 1: no operation ever
leaves a zero-refcount entry in the table; release removes the entry in
the same step in which the decrement reaches zero. -/
theorem c2_refcount_invariant {α : Type} (hash : α → Nat) (ops : List (Op α))
    (e : Nat × InterningNode α)
    (he : e ∈ (runOps (Internify.empty hash) ops).m_interningMap) :
    1 ≤ e.2.refCount :=
  minRC_runOps ops (Internify.empty hash) (by intro x hx; simp [Internify.empty] at hx) e he

/-- Witness for C2 at a concrete input: after `intern 5; intern 5;
release 5; find 5` from the empty pool the entry `(0, ⟨0, 5, 2⟩)` is in
the table and the theorem yields its refcount bound. -/
theorem c2_refcount_invariant_witness :
    ((0, (⟨0, 5, 2⟩ : InterningNode Nat)) ∈
        (runOps (Internify.empty (fun _ : Nat => 0))
          [Op.intern 5, Op.intern 5, Op.releaseOp 5, Op.findOp 5]).m_interningMap) ∧
    1 ≤ ((⟨0, 5, 2⟩ : InterningNode Nat)).refCount :=
  ⟨by decide,
   c2_refcount_invariant (fun _ : Nat => 0)
     [Op.intern 5, Op.intern 5, Op.releaseOp 5, Op.findOp 5]
     (0, ⟨0, 5, 2⟩) (by decide)⟩

/-- Operations on one fixed value: an `intern` call or a `release` call. -/
inductive IRop : Type where
  | int : IRop
  | rel : IRop
deriving DecidableEq

/-- The pool-state effect of one intern/release call on the fixed value. -/
def applyIR {α : Type} (v : α) (p : Internify α) : IRop → Internify α
  | .int => (p.internify v).2
  | .rel => p.release v

/-- Run a sequence of intern/release calls on the fixed value. -/
def runIR {α : Type} (v : α) (p : Internify α) : List IRop → Internify α
  | [] => p
  | op :: ops => runIR v (applyIR v p op) ops

/-- Number of completed `intern` calls in the sequence. -/
def countInt : List IRop → Nat
  | [] => 0
  | .int :: r => countInt r + 1
  | .rel :: r => countInt r

/-- Number of completed `release` calls in the sequence. -/
def countRel : List IRop → Nat
  | [] => 0
  | .int :: r => countRel r
  | .rel :: r => countRel r + 1

/-- Well-formed continuation: starting from `n` net outstanding
references, every `release` is covered by a prior `intern` (no prefix
ever releases more than was interned). -/
def netOkB : Nat → List IRop → Bool
  | _, [] => true
  | n, .int :: r => netOkB (n + 1) r
  | n, .rel :: r => decide (1 ≤ n) && netOkB (n - 1) r

/-- Net outstanding references after the sequence, starting from `n`. -/
def netAfter : Nat → List IRop → Nat
  | n, [] => n
  | n, .int :: r => netAfter (n + 1) r
  | n, .rel :: r => netAfter (n - 1) r

/-- The single-value pool invariant: with `n` net outstanding references
the table is empty when `n = 0` and otherwise holds exactly one entry,
keyed by `hash v`, storing `v` with refcount `n`. -/
def InvC4 {α : Type} (hash : α → Nat) (v : α) (n : Nat) (p : Internify α) : Prop :=
  p.hash = hash ∧
  ((n = 0 ∧ p.m_interningMap = []) ∨
   (1 ≤ n ∧ ∃ i, p.m_interningMap = [(hash v, ⟨i, v, (n : Int)⟩)]))

/-- One `intern` call steps the invariant from `n` to `n + 1`. -/
theorem invC4_int {α : Type} {hash : α → Nat} {v : α} {n : Nat} {p : Internify α}
    (h : InvC4 hash v n p) : InvC4 hash v (n + 1) (applyIR v p .int) := by
  obtain ⟨hh, hc⟩ := h
  rcases hc with ⟨hn0, htab⟩ | ⟨hn1, i, htab⟩
  · refine ⟨?_, Or.inr ⟨by omega, p.nextId, ?_⟩⟩ <;>
      simp [applyIR, Internify.internify, Internify.findExisting,
        Internify.insertNew, Internify.hashValue, lookupK, htab, hh, hn0]
  · refine ⟨?_, Or.inr ⟨by omega, i, ?_⟩⟩ <;>
      simp [applyIR, Internify.internify, Internify.findExisting,
        Internify.insertNew, Internify.hashValue, lookupK, updFirst, bumpRC,
        htab, hh]

/-- One covered `release` call steps the invariant from `n` to `n - 1`. -/
theorem invC4_rel {α : Type} {hash : α → Nat} {v : α} {n : Nat} {p : Internify α}
    (hn : 1 ≤ n) (h : InvC4 hash v n p) :
    InvC4 hash v (n - 1) (applyIR v p .rel) := by
  obtain ⟨hh, hc⟩ := h
  rcases hc with ⟨hn0, _⟩ | ⟨_, i, htab⟩
  · omega
  · by_cases h1 : n = 1
    · refine ⟨?_, Or.inl ⟨by omega, ?_⟩⟩ <;>
        simp [applyIR, Internify.release, Internify.hashValue, lookupK,
          eraseFirst, htab, hh, h1]
    · have hne : ((n : Int)) ≠ 1 := by
        intro hcon
        exact h1 (by exact_mod_cast hcon)
      refine ⟨?_, Or.inr ⟨by omega, i, ?_⟩⟩
      · simp [applyIR, Internify.release, Internify.hashValue, lookupK,
          htab, hh, hne]
      · simp [applyIR, Internify.release, Internify.hashValue, lookupK,
          updFirst, dropRC, htab, hh, hne]
        push_cast [Nat.cast_sub hn]
        ring

/-- Running a well-formed continuation preserves the invariant. -/
theorem invC4_runIR {α : Type} {hash : α → Nat} {v : α} (ops : List IRop) :
    ∀ (n : Nat) (p : Internify α), netOkB n ops = true → InvC4 hash v n p →
      InvC4 hash v (netAfter n ops) (runIR v p ops) := by
  induction ops with
  | nil => intro n p _ h; exact h
  | cons op rest ih =>
    intro n p hok hinv
    cases op with
    | int =>
      exact ih (n + 1) _ (by simpa [netOkB] using hok) (invC4_int hinv)
    | rel =>
      simp only [netOkB, Bool.and_eq_true, decide_eq_true_eq] at hok
      exact ih (n - 1) _ hok.2 (invC4_rel hok.1 hinv)

/-- Under well-formedness the net count is the difference of the call
counts. -/
theorem netAfter_count (ops : List IRop) :
    ∀ n : Nat, netOkB n ops = true →
      netAfter n ops + countRel ops = n + countInt ops := by
  induction ops with
  | nil => intro n _; simp [netAfter, countInt, countRel]
  | cons op rest ih =>
    intro n hok
    cases op with
    | int =>
      have h := ih (n + 1) (by simpa [netOkB] using hok)
      simp only [netAfter, countInt, countRel] at h ⊢
      omega
    | rel =>
      simp only [netOkB, Bool.and_eq_true, decide_eq_true_eq] at hok
      have h := ih (n - 1) hok.2
      simp only [netAfter, countInt, countRel] at h ⊢
      omega

/-- C4 counterexample to the claim as stated: the claim quantifies over
EVERY sequence of completed intern/release calls, but for the sequence
`release v; intern v` (the release precedes any intern, so it is a
no-op) the pool counts `v` (`size = 1`, entry present) although the
number of interns (1) does not strictly exceed the number of releases
(1). -/
theorem c4_counterexample :
    countInt [IRop.rel, IRop.int] ≤ countRel [IRop.rel, IRop.int] ∧
    (runIR (5 : Nat) (Internify.empty (fun _ : Nat => 0)) [IRop.rel, IRop.int]).size = 1 ∧
    (lookupK 0 (runIR (5 : Nat) (Internify.empty (fun _ : Nat => 0))
        [IRop.rel, IRop.int]).m_interningMap).isSome = true := by decide

/-- C4 (amended): for every sequence of completed intern/release calls
on a fixed value `v` starting from an empty pool IN WHICH EVERY RELEASE
IS COVERED BY A PRIOR INTERN (no prefix contains more releases than
interns — `netOkB 0`), `size()` counts `v` (the table holds exactly one
entry, for `v`) iff the number of interns strictly exceeds the number of
releases; in particular two interns give `size = 1` and two further
releases give `size = 0`. -/
theorem c4_refcount_accounting {α : Type} (hash : α → Nat) (v : α)
    (ops : List IRop) (hok : netOkB 0 ops = true) :
    ((runIR v (Internify.empty hash) ops).size =
      if countRel ops < countInt ops then 1 else 0) ∧
    ((lookupK (hash v) (runIR v (Internify.empty hash) ops).m_interningMap).isSome
      ↔ countRel ops < countInt ops) := by
  have hinv := @invC4_runIR α hash v ops 0 (Internify.empty hash) hok
    ⟨rfl, Or.inl ⟨rfl, rfl⟩⟩
  have hcnt := netAfter_count ops 0 hok
  rcases hinv.2 with ⟨h0, htab⟩ | ⟨h1, i, htab⟩
  · have hlt : ¬ countRel ops < countInt ops := by omega
    simp [Internify.size, htab, lookupK, hlt]
  · have hlt : countRel ops < countInt ops := by omega
    simp [Internify.size, htab, lookupK, hlt]

/-- Witness for C4 at a concrete input: the scenario-B sequence
`intern; intern; release; release` is well-formed; the theorem gives
`size = 0` and no entry for the value. -/
theorem c4_refcount_accounting_witness :
    netOkB 0 [IRop.int, IRop.int, IRop.rel, IRop.rel] = true ∧
    (((runIR (5 : Nat) (Internify.empty (fun _ : Nat => 0))
          [IRop.int, IRop.int, IRop.rel, IRop.rel]).size =
        if countRel [IRop.int, IRop.int, IRop.rel, IRop.rel] <
            countInt [IRop.int, IRop.int, IRop.rel, IRop.rel] then 1 else 0) ∧
     ((lookupK ((fun _ : Nat => 0) 5)
          (runIR (5 : Nat) (Internify.empty (fun _ : Nat => 0))
            [IRop.int, IRop.int, IRop.rel, IRop.rel]).m_interningMap).isSome
        ↔ countRel [IRop.int, IRop.int, IRop.rel, IRop.rel] <
            countInt [IRop.int, IRop.int, IRop.rel, IRop.rel])) :=
  ⟨by decide,
   c4_refcount_accounting (fun _ : Nat => 0) 5
     [IRop.int, IRop.int, IRop.rel, IRop.rel] (by decide)⟩

/-- `updFirst` leaves the list of keys unchanged. -/
theorem updFirst_map_fst {α : Type} (k : Nat) (f : InterningNode α → InterningNode α)
    (t : List (Nat × InterningNode α)) :
    (updFirst k f t).map Prod.fst = t.map Prod.fst := by
  induction t with
  | nil => rfl
  | cons q rest ih => by_cases hq : q.1 = k <;> simp [updFirst, hq, ih]

/-- `updFirst` with a value-preserving function leaves the stored values
unchanged. -/
theorem updFirst_map_value {α : Type} (k : Nat) (f : InterningNode α → InterningNode α)
    (hf : ∀ n, (f n).value = n.value) (t : List (Nat × InterningNode α)) :
    (updFirst k f t).map (fun q => q.2.value) = t.map (fun q => q.2.value) := by
  induction t with
  | nil => rfl
  | cons q rest ih => by_cases hq : q.1 = k <;> simp [updFirst, hq, ih, hf]

/-- `updFirst` maps the entry `lookupK` finds through `f`. -/
theorem lookupK_updFirst_self {α : Type} {k : Nat}
    {f : InterningNode α → InterningNode α} {t : List (Nat × InterningNode α)}
    {n : InterningNode α} (h : lookupK k t = some n) :
    lookupK k (updFirst k f t) = some (f n) := by
  induction t with
  | nil => simp [lookupK] at h
  | cons q rest ih =>
    by_cases hq : q.1 = k
    · simp only [lookupK, if_pos hq, Option.some.injEq] at h
      simp [updFirst, lookupK, hq, h]
    · simp only [lookupK, if_neg hq] at h
      simp only [updFirst, if_neg hq, lookupK]
      exact ih h

/-- `updFirst` does not disturb lookups at other keys. -/
theorem lookupK_updFirst_ne {α : Type} {k k2 : Nat} (hk : k2 ≠ k)
    (f : InterningNode α → InterningNode α) (t : List (Nat × InterningNode α)) :
    lookupK k2 (updFirst k f t) = lookupK k2 t := by
  induction t with
  | nil => rfl
  | cons q rest ih =>
    by_cases hq : q.1 = k
    · have hq2 : ¬ q.1 = k2 := by rw [hq]; exact fun hcon => hk hcon.symm
      simp only [updFirst, if_pos hq, lookupK]
      rw [if_neg (by simpa using hq2), if_neg hq2]
    · simp only [updFirst, if_neg hq, lookupK]
      by_cases hq2 : q.1 = k2
      · rw [if_pos hq2, if_pos hq2]
      · rw [if_neg hq2, if_neg hq2]
        exact ih

/-- `updFirst` preserves the table size. -/
theorem updFirst_length {α : Type} (k : Nat)
    (f : InterningNode α → InterningNode α) (t : List (Nat × InterningNode α)) :
    (updFirst k f t).length = t.length := by
  have h := congrArg List.length (updFirst_map_fst k f t)
  simpa using h

/-- C10: when the entry matching `v` (by equality) is present with
refcount ≥ 2, `release(v)` changes nothing except that entry's
refcount, which drops by exactly one: the key list is unchanged, every
stored value is unchanged, lookups at every other key are unchanged, and
`size()` is unchanged. -/
theorem c10_release_frame {α : Type} (p : Internify α) (v : α)
    (e : InterningNode α)
    (hl : lookupK (p.hashValue v) p.m_interningMap = some e)
    (_hv : e.value = v) (hrc : 2 ≤ e.refCount) :
    (p.release v).m_interningMap.map Prod.fst = p.m_interningMap.map Prod.fst ∧
    (p.release v).m_interningMap.map (fun q => q.2.value) =
      p.m_interningMap.map (fun q => q.2.value) ∧
    lookupK (p.hashValue v) (p.release v).m_interningMap =
      some ⟨e.id, e.value, e.refCount - 1⟩ ∧
    (∀ k, k ≠ p.hashValue v →
      lookupK k (p.release v).m_interningMap = lookupK k p.m_interningMap) ∧
    (p.release v).size = p.size := by
  have hne : ¬ e.refCount = 1 := by omega
  have hrel : p.release v =
      ⟨p.hash, updFirst (p.hashValue v) dropRC p.m_interningMap, p.nextId⟩ := by
    simp only [Internify.release]
    rw [hl]
    simp [hne]
  rw [hrel]
  refine ⟨updFirst_map_fst _ _ _,
    updFirst_map_value (p.hashValue v) dropRC (fun n => rfl) p.m_interningMap,
    ?_,
    fun k hk => lookupK_updFirst_ne hk _ _,
    ?_⟩
  · exact lookupK_updFirst_self hl
  · simp only [Internify.size]
    exact updFirst_length _ _ _

/-- Witness for C10 at a concrete input: a pool holding the entry
`⟨0, 7, 2⟩` for value `7` under key `3`; releasing `7` keeps the key,
the value and the size, and drops the refcount to 1. -/
theorem c10_release_frame_witness :
    (lookupK ((⟨fun _ => 3, [(3, ⟨0, 7, 2⟩)], 1⟩ : Internify Nat).hashValue 7)
        (⟨fun _ => 3, [(3, ⟨0, 7, 2⟩)], 1⟩ : Internify Nat).m_interningMap =
      some ⟨0, 7, 2⟩) ∧
    ((⟨0, 7, 2⟩ : InterningNode Nat).value = 7) ∧
    (2 ≤ (⟨0, 7, 2⟩ : InterningNode Nat).refCount) ∧
    (((⟨fun _ => 3, [(3, ⟨0, 7, 2⟩)], 1⟩ : Internify Nat).release 7).m_interningMap.map Prod.fst =
        (⟨fun _ => 3, [(3, ⟨0, 7, 2⟩)], 1⟩ : Internify Nat).m_interningMap.map Prod.fst ∧
      ((⟨fun _ => 3, [(3, ⟨0, 7, 2⟩)], 1⟩ : Internify Nat).release 7).m_interningMap.map (fun q => q.2.value) =
        (⟨fun _ => 3, [(3, ⟨0, 7, 2⟩)], 1⟩ : Internify Nat).m_interningMap.map (fun q => q.2.value) ∧
      lookupK ((⟨fun _ => 3, [(3, ⟨0, 7, 2⟩)], 1⟩ : Internify Nat).hashValue 7)
          ((⟨fun _ => 3, [(3, ⟨0, 7, 2⟩)], 1⟩ : Internify Nat).release 7).m_interningMap =
        some ⟨(⟨0, 7, 2⟩ : InterningNode Nat).id, (⟨0, 7, 2⟩ : InterningNode Nat).value,
          (⟨0, 7, 2⟩ : InterningNode Nat).refCount - 1⟩ ∧
      (∀ k, k ≠ (⟨fun _ => 3, [(3, ⟨0, 7, 2⟩)], 1⟩ : Internify Nat).hashValue 7 →
        lookupK k ((⟨fun _ => 3, [(3, ⟨0, 7, 2⟩)], 1⟩ : Internify Nat).release 7).m_interningMap =
          lookupK k (⟨fun _ => 3, [(3, ⟨0, 7, 2⟩)], 1⟩ : Internify Nat).m_interningMap) ∧
      ((⟨fun _ => 3, [(3, ⟨0, 7, 2⟩)], 1⟩ : Internify Nat).release 7).size =
        (⟨fun _ => 3, [(3, ⟨0, 7, 2⟩)], 1⟩ : Internify Nat).size) :=
  ⟨by decide, rfl, by decide,
   c10_release_frame (⟨fun _ => 3, [(3, ⟨0, 7, 2⟩)], 1⟩ : Internify Nat) 7
     ⟨0, 7, 2⟩ (by decide) rfl (by decide)⟩

end Scc
